import Mathlib

/-
Verification of the SDS (simple dynamic string) core of redis-3.0.5,
as exposed by src/sds.h.

The header defines the data layout (struct sdshdr with unsigned int
fields len and free followed by a flexible byte array buf), the
SDS_MAX_PREALLOC growth threshold, and inline readers sdslen/sdsavail.
The implementation file sds.c is not part of the sources examined, so
each operation whose body is absent is modelled from the specification
document (its doc comment says so explicitly).

Modelling choices:
  - a byte is a Nat; memory cells are read modulo 256 where the C type
    forces a byte;
  - an SDS allocation is a structure holding the two header fields and
    the byte array buf (payload ++ spare ++ sentinel), of intended
    length len + free + 1;
  - in-place stores become List.set (single byte) and writeAt (block
    copy, the image of memcpy/memmove/memset); reallocation becomes
    reallocBuf, which preserves min(old, new) bytes exactly as realloc
    does and models fresh memory as zero bytes.
-/

/-- The in-memory header-plus-buffer state of one SDS allocation.
`len` and `free` are the two unsigned int header fields; `buf` is the
byte region (payload, spare capacity, and the sentinel). -/
structure sdshdr where
  len : Nat
  free : Nat
  buf : List Nat
deriving DecidableEq

/-- SDS_MAX_PREALLOC, defined in sds.h as (1024*1024). -/
def SDS_MAX_PREALLOC : Nat := 1024 * 1024

/-- Structural invariant promised by the sds.h comments: the buffer has
exactly len + free + 1 bytes and the byte at offset len is the zero
sentinel. -/
def valid (s : sdshdr) : Prop :=
  s.buf.length = s.len + s.free + 1 ∧ s.buf[s.len]? = some 0

instance (s : sdshdr) : Decidable (valid s) := by
  unfold valid; exact inferInstance

/-- The meaningful content of an SDS string: the first len bytes. -/
def content (s : sdshdr) : List Nat := s.buf.take s.len

/-- Image of memcpy/memmove/memset: overwrite the bytes of `buf`
starting at offset `i` with `data`. -/
def writeAt (buf : List Nat) (i : Nat) (data : List Nat) : List Nat :=
  buf.take i ++ data ++ buf.drop (i + data.length)

/-- Image of realloc to `newsize` bytes: the first min(old, new) bytes
are preserved; any fresh bytes are modelled as zero. -/
def reallocBuf (buf : List Nat) (newsize : Nat) : List Nat :=
  buf.take newsize ++ List.replicate (newsize - buf.length) 0

/-- Modelled from the spec: sds.c is absent, only the declaration
`sds sdsnewlen(const void *init, size_t initlen)` is in sds.h. Per the
spec, create allocates header + initlen payload bytes + 1 sentinel,
sets length = initlen and free = 0, copies the input bytes and writes
the sentinel. -/
def sdsnewlen (init : List Nat) (initlen : Nat) : sdshdr :=
  { len := initlen, free := 0, buf := init.take initlen ++ [0] }

/-- Modelled from the spec: sds.c is absent, only the declaration
`sds sdsMakeRoomFor(sds s, size_t addlen)` is in sds.h. Per the spec
(and the policy comment above SDS_MAX_PREALLOC in sds.h): if free
already covers addlen the string is returned unchanged; otherwise with
newlen = len + addlen the new capacity is 2*newlen when
newlen < SDS_MAX_PREALLOC and newlen + SDS_MAX_PREALLOC otherwise, the
buffer is reallocated to capacity + 1 bytes and free becomes the new
capacity minus len. The pure policy is split out as growAlloc. -/
def growAlloc (newlen : Nat) : Nat :=
  if newlen < SDS_MAX_PREALLOC then 2 * newlen else newlen + SDS_MAX_PREALLOC

/-- Modelled from the spec: ensure-capacity, see the comment on
growAlloc for the policy taken from the spec and the sds.h comment
above SDS_MAX_PREALLOC. -/
def sdsMakeRoomFor (s : sdshdr) (addlen : Nat) : sdshdr :=
  if addlen ≤ s.free then s
  else
    { len := s.len
      free := growAlloc (s.len + addlen) - s.len
      buf := reallocBuf s.buf (growAlloc (s.len + addlen) + 1) }

/-- Modelled from the spec: sds.c is absent, only the declaration
`sds sdscatlen(sds s, const void *t, size_t len)` is in sds.h. Per the
spec, append calls the growth policy with additional = n, copies n
bytes at offset length, adds n to length, subtracts n from free, and
rewrites the sentinel at the new length. -/
def sdscatlen (s : sdshdr) (t : List Nat) (n : Nat) : sdshdr :=
  let s1 := sdsMakeRoomFor s n
  { len := s1.len + n
    free := s1.free - n
    buf := (writeAt s1.buf s1.len (t.take n)).set (s1.len + n) 0 }

/-- Modelled from the spec: sds.c is absent, only the declaration
`sds sdscpylen(sds s, const char *t, size_t len)` is in sds.h. Per the
spec, overwrite is like append with length conceptually reset to 0
first: grow when the whole allocation cannot hold n bytes, copy the n
bytes at offset 0, set length = n, leave the rest of the allocation as
free, write the sentinel. -/
def sdscpylen (s : sdshdr) (t : List Nat) (n : Nat) : sdshdr :=
  let s1 := if s.free + s.len < n then sdsMakeRoomFor s (n - s.len) else s
  { len := n
    free := s1.free + s1.len - n
    buf := (writeAt s1.buf 0 (t.take n)).set n 0 }

/-- Modelled from the spec: sds.c is absent, only the declaration
`sds sdsgrowzero(sds s, size_t len)` is in sds.h. Per the spec, when
the target length exceeds the current one the string grows via the
policy and the newly exposed region (sentinel included) is
zero-filled, with length updated to the target. -/
def sdsgrowzero (s : sdshdr) (len : Nat) : sdshdr :=
  if len ≤ s.len then s
  else
    let s1 := sdsMakeRoomFor s (len - s.len)
    { len := len
      free := s1.len + s1.free - len
      buf := writeAt s1.buf s1.len (List.replicate (len - s1.len + 1) 0) }

/-- Modelled from the spec: sds.c is absent, only the declaration
`void sdsclear(sds s)` is in sds.h. Per the spec, clear is a lazy
reset: free absorbs length, length becomes 0, no bytes are scrubbed
beyond writing the sentinel at offset 0, and there is no relocation. -/
def sdsclear (s : sdshdr) : sdshdr :=
  { len := 0, free := s.free + s.len, buf := s.buf.set 0 0 }

/-- Modelled from the spec: sds.c is absent, only the declaration
`void sdsrange(sds s, int start, int end)` is in sds.h. Per the spec,
negative indices count from the end (-1 is the last byte), indices are
clamped to the string, start > end after normalization yields the
empty string, the kept range moves to offset 0 in place, the sentinel
is written at the new length, and trailing bytes become free capacity
with no relocation. The index normalization is split out as rangeLo,
rangeHi and rangeNewlen below, used by sdsrange. -/
def rangeLo (len : Nat) (start : Int) : Int :=
  max (if start < 0 then (len : Int) + start else start) 0

/-- Normalized inclusive upper index of a range request: negative
values count from the end, values past the last byte are clamped to
len - 1. -/
def rangeHi (len : Nat) (stop : Int) : Int :=
  min (if stop < 0 then (len : Int) + stop else stop) ((len : Int) - 1)

/-- Length of the kept range: hi - lo + 1 when the normalized range is
nonempty, 0 otherwise. -/
def rangeNewlen (len : Nat) (start stop : Int) : Nat :=
  if rangeLo len start ≤ rangeHi len stop then
    (rangeHi len stop - rangeLo len start + 1).toNat
  else 0

/-- Modelled from the spec: sdsrange, assembled from rangeLo, rangeHi
and rangeNewlen; the kept bytes move to offset 0 in place and the
sentinel is written at the new length. -/
def sdsrange (s : sdshdr) (start stop : Int) : sdshdr :=
  { len := rangeNewlen s.len start stop
    free := s.free + (s.len - rangeNewlen s.len start stop)
    buf :=
      (writeAt s.buf 0
        ((s.buf.drop (rangeLo s.len start).toNat).take (rangeNewlen s.len start stop))).set
        (rangeNewlen s.len start stop) 0 }

/-- Modelled from the spec: sds.c is absent, only the declaration
`sds sdsRemoveFreeSpace(sds s)` is in sds.h. Per the spec, shrink
reallocates to exactly length + 1 bytes and free becomes 0. -/
def sdsRemoveFreeSpace (s : sdshdr) : sdshdr :=
  { len := s.len, free := 0, buf := reallocBuf s.buf (s.len + 1) }

/-
Byte-level model of the inline readers, which are the only function
bodies present in sds.h. Memory is a list of byte cells; a handle is
the Nat offset of the payload inside that memory, sizeof(struct sdshdr)
bytes after the header. struct sdshdr holds two unsigned int fields of
4 bytes each (the flexible array member buf occupies no space), stored
little-endian.
-/

/-- sizeof(struct sdshdr): two 4-byte unsigned int fields; the flexible
array member buf contributes no size. -/
def sdshdrSize : Nat := 8

/-- Little-endian decoding of a list of memory cells as an unsigned
integer; each cell is read as a byte (mod 256). -/
def leDecode : List Nat → Nat
  | [] => 0
  | b :: bs => b % 256 + 256 * leDecode bs

/-- Little-endian encoding of `n` into `k` bytes. -/
def leEncode : Nat → Nat → List Nat
  | 0, _ => []
  | k + 1, n => n % 256 :: leEncode k (n / 256)

/-- The bytes of one SDS allocation laid out in memory: the 4-byte len
field, the 4-byte free field, then the buffer. -/
def reprSDS (s : sdshdr) : List Nat :=
  leEncode 4 s.len ++ leEncode 4 s.free ++ s.buf

/-- Embedding of `static inline size_t sdslen(const sds s)` from sds.h:
step back sizeof(struct sdshdr) bytes from the payload offset `p` and
read the unsigned int field len (at offset 0 of the header). -/
def sdslen (mem : List Nat) (p : Nat) : Nat :=
  leDecode ((mem.drop (p - sdshdrSize)).take 4)

/-- Embedding of `static inline size_t sdsavail(const sds s)` from
sds.h: step back sizeof(struct sdshdr) bytes from the payload offset
`p` and read the unsigned int field free (at offset 4 of the header). -/
def sdsavail (mem : List Nat) (p : Nat) : Nat :=
  leDecode ((mem.drop (p - sdshdrSize + 4)).take 4)

/-- State-passing embedding of sdslen: the body of the const-qualified
C function contains reads only, so its memory effect is the identity. -/
def sdslenCall (mem : List Nat) (p : Nat) : Nat × List Nat :=
  (sdslen mem p, mem)

/-- State-passing embedding of sdsavail, likewise read-only. -/
def sdsavailCall (mem : List Nat) (p : Nat) : Nat × List Nat :=
  (sdsavail mem p, mem)

/-- C return types of the sds.h declarations that the claims mention. -/
inductive CRet where
  | void
  | sdsTy
  | sizeTy
  | intTy
deriving DecidableEq

/-- Return type of `sds sdscatlen(sds s, const void *t, size_t len)`
(sds.h line 132). -/
def sdscatlenRet : CRet := .sdsTy

/-- Return type of `sds sdscpylen(sds s, const char *t, size_t len)`
(sds.h line 135). -/
def sdscpylenRet : CRet := .sdsTy

/-- Return type of `sds sdsgrowzero(sds s, size_t len)` (sds.h line
131). -/
def sdsgrowzeroRet : CRet := .sdsTy

/-- Return type of `sds sdsRemoveFreeSpace(sds s)` (sds.h line 165). -/
def sdsRemoveFreeSpaceRet : CRet := .sdsTy

/-- Return type of `void sdsrange(sds s, int start, int end)` (sds.h
line 148). -/
def sdsrangeRet : CRet := .void

/-- Return type of `void sdsclear(sds s)` (sds.h line 150). -/
def sdsclearRet : CRet := .void

/-- SDS states reachable through the public API: created by sdsnewlen
and transformed by the modelled core operations. -/
inductive Reachable : sdshdr → Prop where
  | newlen : ∀ init initlen, initlen ≤ init.length → Reachable (sdsnewlen init initlen)
  | makeRoom : ∀ s addlen, Reachable s → Reachable (sdsMakeRoomFor s addlen)
  | catlen : ∀ s t n, Reachable s → Reachable (sdscatlen s t n)
  | cpylen : ∀ s t n, Reachable s → Reachable (sdscpylen s t n)
  | growzero : ∀ s l, Reachable s → Reachable (sdsgrowzero s l)
  | clear : ∀ s, Reachable s → Reachable (sdsclear s)
  | range : ∀ s start stop, Reachable s → Reachable (sdsrange s start stop)
  | removeFree : ∀ s, Reachable s → Reachable (sdsRemoveFreeSpace s)

/-- A finite sequence of append calls, each a (data, n) pair, folded
over a starting string in call order. -/
def appendCalls (s : sdshdr) (calls : List (List Nat × Nat)) : sdshdr :=
  calls.foldl (fun a c => sdscatlen a c.1 c.2) s

/-
Helper lemmas about the buffer primitives.
-/

theorem length_reallocBuf (buf : List Nat) (ns : Nat) : (reallocBuf buf ns).length = ns := by
  simp [reallocBuf]
  omega

theorem length_writeAt {buf data : List Nat} {i : Nat} (h : i + data.length ≤ buf.length) :
    (writeAt buf i data).length = buf.length := by
  simp [writeAt]
  omega

theorem take_writeAt_full (buf data : List Nat) (i : Nat) (h : i ≤ buf.length) :
    (writeAt buf i data).take (i + data.length) = buf.take i ++ data := by
  have hlen : (buf.take i ++ data).length = i + data.length := by
    simp [List.length_take]
    omega
  rw [writeAt, List.take_left' hlen]

theorem getElem?_writeAt_mid (buf data : List Nat) (i k : Nat)
    (hk : k < data.length) (hi : i ≤ buf.length) :
    (writeAt buf i data)[i + k]? = data[k]? := by
  rw [writeAt,
    List.getElem?_append_left (by simp only [List.length_append, List.length_take]; omega),
    List.getElem?_append_right (by simp only [List.length_take]; omega)]
  have harith : i + k - (buf.take i).length = k := by
    simp only [List.length_take]
    omega
  rw [harith]

theorem take_set_le {l : List Nat} {m n : Nat} (v : Nat) (h : m ≤ n) :
    (l.set n v).take m = l.take m := by
  apply List.ext_getElem?
  intro j
  rw [List.getElem?_take, List.getElem?_take]
  split
  · rw [List.getElem?_set_ne (by omega)]
  · rfl

theorem length_leEncode (k n : Nat) : (leEncode k n).length = k := by
  induction k generalizing n with
  | zero => rfl
  | succ k ih => simp [leEncode, ih]

theorem leDecode_leEncode {k n : Nat} (h : n < 256 ^ k) : leDecode (leEncode k n) = n := by
  induction k generalizing n with
  | zero =>
    simp [leEncode, leDecode]
    simp at h
    omega
  | succ k ih =>
    have h2 : n / 256 < 256 ^ k := by
      apply (Nat.div_lt_iff_lt_mul (by norm_num)).mpr
      rw [pow_succ] at h
      exact h
    simp only [leEncode, leDecode]
    rw [ih h2]
    omega

theorem leDecode_lt (bs : List Nat) : leDecode bs < 256 ^ bs.length := by
  induction bs with
  | nil => simp [leDecode]
  | cons b bs ih =>
    simp only [leDecode, List.length_cons]
    calc b % 256 + 256 * leDecode bs < 256 * (leDecode bs + 1) := by omega
    _ ≤ 256 * 256 ^ bs.length := by
        apply Nat.mul_le_mul_left
        omega
    _ = 256 ^ (bs.length + 1) := by
        rw [pow_succ, Nat.mul_comm]

/-
Preservation lemmas for the invariant and the content of each
operation; shared by the claim theorems below.
-/

theorem growAlloc_ge (n : Nat) : n ≤ growAlloc n := by
  unfold growAlloc SDS_MAX_PREALLOC
  split <;> omega

theorem makeRoom_of_le {s : sdshdr} {a : Nat} (h : a ≤ s.free) : sdsMakeRoomFor s a = s :=
  if_pos h

theorem makeRoom_of_gt {s : sdshdr} {a : Nat} (h : ¬ a ≤ s.free) :
    sdsMakeRoomFor s a =
      { len := s.len
        free := growAlloc (s.len + a) - s.len
        buf := reallocBuf s.buf (growAlloc (s.len + a) + 1) } :=
  if_neg h

theorem len_makeRoom (s : sdshdr) (a : Nat) : (sdsMakeRoomFor s a).len = s.len := by
  unfold sdsMakeRoomFor
  split <;> rfl

theorem free_makeRoom (s : sdshdr) (a : Nat) : a ≤ (sdsMakeRoomFor s a).free := by
  by_cases hf : a ≤ s.free
  · rw [makeRoom_of_le hf]
    exact hf
  · rw [makeRoom_of_gt hf]
    have hga := growAlloc_ge (s.len + a)
    show a ≤ growAlloc (s.len + a) - s.len
    omega

theorem valid_makeRoom {s : sdshdr} (a : Nat) (hv : valid s) : valid (sdsMakeRoomFor s a) := by
  obtain ⟨hl, hs⟩ := hv
  by_cases hf : a ≤ s.free
  · rw [makeRoom_of_le hf]
    exact ⟨hl, hs⟩
  · rw [makeRoom_of_gt hf]
    have hga := growAlloc_ge (s.len + a)
    constructor
    · show (reallocBuf s.buf (growAlloc (s.len + a) + 1)).length = _
      rw [length_reallocBuf]
      show _ = s.len + (growAlloc (s.len + a) - s.len) + 1
      omega
    · show (reallocBuf s.buf (growAlloc (s.len + a) + 1))[s.len]? = some 0
      rw [reallocBuf, List.getElem?_append_left (by simp [List.length_take]; omega),
        List.getElem?_take_of_lt (by omega)]
      exact hs

theorem content_makeRoom {s : sdshdr} (a : Nat) (hv : valid s) :
    content (sdsMakeRoomFor s a) = content s := by
  obtain ⟨hl, hs⟩ := hv
  by_cases hf : a ≤ s.free
  · rw [makeRoom_of_le hf]
  · rw [makeRoom_of_gt hf]
    have hga := growAlloc_ge (s.len + a)
    show (reallocBuf s.buf (growAlloc (s.len + a) + 1)).take s.len = s.buf.take s.len
    rw [reallocBuf, List.take_append_of_le_length (by simp [List.length_take]; omega),
      List.take_take, Nat.min_eq_left (by omega)]

theorem valid_newlen {init : List Nat} {initlen : Nat} (h : initlen ≤ init.length) :
    valid (sdsnewlen init initlen) := by
  constructor
  · show (init.take initlen ++ [0]).length = initlen + 0 + 1
    simp [List.length_take]
    omega
  · show (init.take initlen ++ [0])[initlen]? = some 0
    rw [List.getElem?_append_right (by simp only [List.length_take]; omega)]
    simp [List.length_take, Nat.min_eq_left h]

theorem len_catlen (s : sdshdr) (t : List Nat) (n : Nat) :
    (sdscatlen s t n).len = s.len + n := by
  show (sdsMakeRoomFor s n).len + n = s.len + n
  rw [len_makeRoom]

theorem valid_catlen {s : sdshdr} (t : List Nat) (n : Nat) (hv : valid s) :
    valid (sdscatlen s t n) := by
  have hf1 := free_makeRoom s n
  obtain ⟨hl1, hs1⟩ := valid_makeRoom n hv
  constructor
  · show ((writeAt (sdsMakeRoomFor s n).buf (sdsMakeRoomFor s n).len (t.take n)).set
        ((sdsMakeRoomFor s n).len + n) 0).length =
      ((sdsMakeRoomFor s n).len + n) + ((sdsMakeRoomFor s n).free - n) + 1
    rw [List.length_set, length_writeAt (by simp only [List.length_take]; omega)]
    omega
  · show ((writeAt (sdsMakeRoomFor s n).buf (sdsMakeRoomFor s n).len (t.take n)).set
        ((sdsMakeRoomFor s n).len + n) 0)[(sdsMakeRoomFor s n).len + n]? = some 0
    rw [List.getElem?_set_self
      (by rw [length_writeAt (by simp only [List.length_take]; omega)]; omega)]

theorem content_catlen {s : sdshdr} {t : List Nat} {n : Nat} (hv : valid s) (hn : n ≤ t.length) :
    content (sdscatlen s t n) = content s ++ t.take n := by
  have hf1 := free_makeRoom s n
  obtain ⟨hl1, hs1⟩ := valid_makeRoom n hv
  have hdl : (t.take n).length = n := by
    simp only [List.length_take]
    omega
  show ((writeAt (sdsMakeRoomFor s n).buf (sdsMakeRoomFor s n).len (t.take n)).set
      ((sdsMakeRoomFor s n).len + n) 0).take ((sdsMakeRoomFor s n).len + n) =
    content s ++ t.take n
  rw [take_set_le _ (le_refl _)]
  have hfull := take_writeAt_full (sdsMakeRoomFor s n).buf (t.take n)
    (sdsMakeRoomFor s n).len (by omega)
  rw [hdl] at hfull
  rw [hfull]
  have hc := content_makeRoom n hv
  simp only [content] at hc
  rw [hc]
  rfl

theorem valid_cpylen {s : sdshdr} (t : List Nat) (n : Nat) (hv : valid s) :
    valid (sdscpylen s t n) := by
  show valid
    { len := n
      free := (if s.free + s.len < n then sdsMakeRoomFor s (n - s.len) else s).free +
        (if s.free + s.len < n then sdsMakeRoomFor s (n - s.len) else s).len - n
      buf := (writeAt (if s.free + s.len < n then sdsMakeRoomFor s (n - s.len) else s).buf 0
        (t.take n)).set n 0 }
  by_cases hc : s.free + s.len < n
  · simp only [if_pos hc]
    have hf1 := free_makeRoom s (n - s.len)
    have hl1 := len_makeRoom s (n - s.len)
    obtain ⟨hb1, hs1⟩ := valid_makeRoom (n - s.len) hv
    have hcap : n ≤ (sdsMakeRoomFor s (n - s.len)).free + (sdsMakeRoomFor s (n - s.len)).len := by
      omega
    constructor
    · show ((writeAt (sdsMakeRoomFor s (n - s.len)).buf 0 (t.take n)).set n 0).length =
        n + ((sdsMakeRoomFor s (n - s.len)).free + (sdsMakeRoomFor s (n - s.len)).len - n) + 1
      rw [List.length_set, length_writeAt (by simp only [List.length_take]; omega)]
      omega
    · show ((writeAt (sdsMakeRoomFor s (n - s.len)).buf 0 (t.take n)).set n 0)[n]? = some 0
      rw [List.getElem?_set_self
        (by rw [length_writeAt (by simp only [List.length_take]; omega)]; omega)]
  · simp only [if_neg hc]
    obtain ⟨hb, hs⟩ := hv
    constructor
    · show ((writeAt s.buf 0 (t.take n)).set n 0).length = n + (s.free + s.len - n) + 1
      rw [List.length_set, length_writeAt (by simp only [List.length_take]; omega)]
      omega
    · show ((writeAt s.buf 0 (t.take n)).set n 0)[n]? = some 0
      rw [List.getElem?_set_self
        (by rw [length_writeAt (by simp only [List.length_take]; omega)]; omega)]

theorem valid_growzero {s : sdshdr} (l : Nat) (hv : valid s) : valid (sdsgrowzero s l) := by
  unfold sdsgrowzero
  split
  · exact hv
  · rename_i hgt
    have hf1 := free_makeRoom s (l - s.len)
    have hl1 := len_makeRoom s (l - s.len)
    obtain ⟨hb1, hs1⟩ := valid_makeRoom (l - s.len) hv
    constructor
    · show (writeAt (sdsMakeRoomFor s (l - s.len)).buf (sdsMakeRoomFor s (l - s.len)).len
          (List.replicate (l - (sdsMakeRoomFor s (l - s.len)).len + 1) 0)).length =
        l + ((sdsMakeRoomFor s (l - s.len)).len + (sdsMakeRoomFor s (l - s.len)).free - l) + 1
      rw [length_writeAt (by simp only [List.length_replicate]; omega)]
      omega
    · show (writeAt (sdsMakeRoomFor s (l - s.len)).buf (sdsMakeRoomFor s (l - s.len)).len
          (List.replicate (l - (sdsMakeRoomFor s (l - s.len)).len + 1) 0))[l]? = some 0
      have hmid := getElem?_writeAt_mid (sdsMakeRoomFor s (l - s.len)).buf
        (List.replicate (l - (sdsMakeRoomFor s (l - s.len)).len + 1) 0)
        (sdsMakeRoomFor s (l - s.len)).len (l - (sdsMakeRoomFor s (l - s.len)).len)
        (by simp only [List.length_replicate]; omega) (by omega)
      rw [show (sdsMakeRoomFor s (l - s.len)).len +
          (l - (sdsMakeRoomFor s (l - s.len)).len) = l from by omega] at hmid
      rw [hmid, List.getElem?_replicate_of_lt (by omega)]

theorem valid_clear {s : sdshdr} (hv : valid s) : valid (sdsclear s) := by
  obtain ⟨hb, hs⟩ := hv
  constructor
  · show (s.buf.set 0 0).length = 0 + (s.free + s.len) + 1
    rw [List.length_set]
    omega
  · show (s.buf.set 0 0)[0]? = some 0
    rw [List.getElem?_set_self (by omega)]

theorem rangeNewlen_le (len : Nat) (start stop : Int) : rangeNewlen len start stop ≤ len := by
  unfold rangeNewlen
  have h1 : (0 : Int) ≤ rangeLo len start := le_max_right _ _
  have h2 : rangeHi len stop ≤ (len : Int) - 1 := min_le_right _ _
  split
  · omega
  · omega

theorem valid_range {s : sdshdr} (start stop : Int) (hv : valid s) :
    valid (sdsrange s start stop) := by
  obtain ⟨hb, hs⟩ := hv
  have hnl := rangeNewlen_le s.len start stop
  constructor
  · show ((writeAt s.buf 0
        ((s.buf.drop (rangeLo s.len start).toNat).take (rangeNewlen s.len start stop))).set
        (rangeNewlen s.len start stop) 0).length =
      rangeNewlen s.len start stop + (s.free + (s.len - rangeNewlen s.len start stop)) + 1
    rw [List.length_set,
      length_writeAt (by simp only [List.length_take, List.length_drop]; omega)]
    omega
  · show ((writeAt s.buf 0
        ((s.buf.drop (rangeLo s.len start).toNat).take (rangeNewlen s.len start stop))).set
        (rangeNewlen s.len start stop) 0)[rangeNewlen s.len start stop]? = some 0
    rw [List.getElem?_set_self (by
      rw [length_writeAt (by simp only [List.length_take, List.length_drop]; omega)]
      omega)]

theorem valid_removeFree {s : sdshdr} (hv : valid s) : valid (sdsRemoveFreeSpace s) := by
  obtain ⟨hb, hs⟩ := hv
  constructor
  · show (reallocBuf s.buf (s.len + 1)).length = s.len + 0 + 1
    rw [length_reallocBuf]
  · show (reallocBuf s.buf (s.len + 1))[s.len]? = some 0
    rw [reallocBuf, List.getElem?_append_left (by simp only [List.length_take]; omega),
      List.getElem?_take_of_lt (by omega)]
    exact hs

/-
Claim theorems.
-/

/-- C1: growth policy (ensure-capacity): for a valid string, if free
already covers the requested addlen the string is returned unchanged
with no relocation; otherwise with newLen = len + addlen the new
allocated capacity excluding the one sentinel byte is 2 * newLen when
newLen < 1 MiB (1048576) and newLen + 1 MiB otherwise, with free set
to the new capacity minus len. -/
theorem sds_growth_policy (s : sdshdr) (addlen : Nat) (_hv : valid s) :
    (addlen ≤ s.free → sdsMakeRoomFor s addlen = s) ∧
    (s.free < addlen → s.len + addlen < 1048576 →
      (sdsMakeRoomFor s addlen).len = s.len ∧
      (sdsMakeRoomFor s addlen).buf.length - 1 = 2 * (s.len + addlen) ∧
      (sdsMakeRoomFor s addlen).free = 2 * (s.len + addlen) - s.len) ∧
    (s.free < addlen → 1048576 ≤ s.len + addlen →
      (sdsMakeRoomFor s addlen).len = s.len ∧
      (sdsMakeRoomFor s addlen).buf.length - 1 = (s.len + addlen) + 1048576 ∧
      (sdsMakeRoomFor s addlen).free = (s.len + addlen) + 1048576 - s.len) := by
  refine ⟨fun h => makeRoom_of_le h, fun h1 h2 => ?_, fun h1 h2 => ?_⟩
  · rw [makeRoom_of_gt (by omega)]
    have hga : growAlloc (s.len + addlen) = 2 * (s.len + addlen) := by
      unfold growAlloc SDS_MAX_PREALLOC
      rw [if_pos (by omega)]
    refine ⟨rfl, ?_, ?_⟩
    · show (reallocBuf s.buf (growAlloc (s.len + addlen) + 1)).length - 1 = _
      rw [length_reallocBuf, hga]
      omega
    · show growAlloc (s.len + addlen) - s.len = _
      rw [hga]
  · rw [makeRoom_of_gt (by omega)]
    have hga : growAlloc (s.len + addlen) = (s.len + addlen) + 1048576 := by
      unfold growAlloc SDS_MAX_PREALLOC
      rw [if_neg (by omega)]
    refine ⟨rfl, ?_, ?_⟩
    · show (reallocBuf s.buf (growAlloc (s.len + addlen) + 1)).length - 1 = _
      rw [length_reallocBuf, hga]
      omega
    · show growAlloc (s.len + addlen) - s.len = _
      rw [hga]

/-- Witness for sds_growth_policy: a concrete valid string with len 2
and free 3 grown by 10 additional bytes (small-string branch). -/
theorem sds_growth_policy_witness :
    (sdsMakeRoomFor (sdshdr.mk 2 3 [1, 2, 0, 0, 0, 0]) 10).len = 2 ∧
    (sdsMakeRoomFor (sdshdr.mk 2 3 [1, 2, 0, 0, 0, 0]) 10).buf.length - 1 = 2 * (2 + 10) ∧
    (sdsMakeRoomFor (sdshdr.mk 2 3 [1, 2, 0, 0, 0, 0]) 10).free = 2 * (2 + 10) - 2 :=
  (sds_growth_policy (sdshdr.mk 2 3 [1, 2, 0, 0, 0, 0]) 10 (by decide)).2.1
    (by decide) (by decide)

/-- C2: structural invariant: every string state reachable through the
API satisfies allocatedSize = length + free + 1 and has the zero
sentinel at offset length; since every operation maps Reachable states
to Reachable states, the invariant holds before and after every
operation. -/
theorem sds_invariant_reachable (s : sdshdr) (h : Reachable s) : valid s := by
  induction h with
  | newlen init initlen hle => exact valid_newlen hle
  | makeRoom s a _ ih => exact valid_makeRoom a ih
  | catlen s t n _ ih => exact valid_catlen t n ih
  | cpylen s t n _ ih => exact valid_cpylen t n ih
  | growzero s l _ ih => exact valid_growzero l ih
  | clear s _ ih => exact valid_clear ih
  | range s start stop _ ih => exact valid_range start stop ih
  | removeFree s _ ih => exact valid_removeFree ih

/-- Witness for sds_invariant_reachable: a concrete state built by
create, append and clear. -/
theorem sds_invariant_reachable_witness :
    valid (sdsclear (sdscatlen (sdsnewlen [104, 0, 105] 3) [7] 1)) :=
  sds_invariant_reachable _
    (Reachable.clear _
      (Reachable.catlen _ [7] 1 (Reachable.newlen [104, 0, 105] 3 (by decide))))

theorem appendCalls_spec (calls : List (List Nat × Nat)) :
    ∀ s : sdshdr, valid s → (∀ c ∈ calls, c.2 ≤ c.1.length) →
      valid (appendCalls s calls) ∧
      (appendCalls s calls).len = s.len + (calls.map (fun c => c.2)).sum ∧
      content (appendCalls s calls) =
        content s ++ (calls.map (fun c => c.1.take c.2)).flatten := by
  induction calls with
  | nil =>
    intro s hv _
    exact ⟨hv, by simp [appendCalls], by simp [appendCalls]⟩
  | cons c cs ih =>
    intro s hv hall
    have hc : c.2 ≤ c.1.length := hall c (by simp)
    have hcs : ∀ d ∈ cs, d.2 ≤ d.1.length := fun d hd => hall d (by simp [hd])
    have h1 := valid_catlen c.1 c.2 hv
    have ih2 := ih (sdscatlen s c.1 c.2) h1 hcs
    refine ⟨ih2.1, ?_, ?_⟩
    · show (appendCalls (sdscatlen s c.1 c.2) cs).len = _
      rw [ih2.2.1, len_catlen]
      simp only [List.map_cons, List.sum_cons]
      omega
    · show content (appendCalls (sdscatlen s c.1 c.2) cs) = _
      rw [ih2.2.2, content_catlen hv hc]
      simp only [List.map_cons, List.flatten_cons, List.append_assoc]

/-- C4: append is a concatenation homomorphism: over any finite
sequence of append(data, n) calls on a valid string, the final length
is the starting length plus the sum of the appended lengths, the final
content is the starting content followed by the appended byte blocks
in call order, and the sentinel sits at the new length. -/
theorem sds_append_homomorphism (s : sdshdr) (calls : List (List Nat × Nat))
    (hv : valid s) (hcalls : ∀ c ∈ calls, c.2 ≤ c.1.length) :
    (appendCalls s calls).len = s.len + (calls.map (fun c => c.2)).sum ∧
    content (appendCalls s calls) =
      content s ++ (calls.map (fun c => c.1.take c.2)).flatten ∧
    (appendCalls s calls).buf[(appendCalls s calls).len]? = some 0 :=
  have h := appendCalls_spec calls s hv hcalls
  ⟨h.2.1, h.2.2, h.1.2⟩

/-- Witness for sds_append_homomorphism: two concrete appends onto a
concrete one-byte string. -/
theorem sds_append_homomorphism_witness :
    (appendCalls (sdsnewlen [104] 1) [([7, 8], 2), ([9], 1)]).len =
      (sdsnewlen [104] 1).len +
        (([([7, 8], 2), ([9], 1)] : List (List Nat × Nat)).map (fun c => c.2)).sum ∧
    content (appendCalls (sdsnewlen [104] 1) [([7, 8], 2), ([9], 1)]) =
      content (sdsnewlen [104] 1) ++
        (([([7, 8], 2), ([9], 1)] : List (List Nat × Nat)).map (fun c => c.1.take c.2)).flatten ∧
    (appendCalls (sdsnewlen [104] 1) [([7, 8], 2), ([9], 1)]).buf[
      (appendCalls (sdsnewlen [104] 1) [([7, 8], 2), ([9], 1)]).len]? = some 0 :=
  sds_append_homomorphism (sdsnewlen [104] 1) [([7, 8], 2), ([9], 1)]
    (by decide) (by decide)

/-- C5: binary-safe creation: for any byte sequence of length len,
sdsnewlen yields length len, free 0, content equal to the input bytes
(embedded zero bytes included) and the sentinel right after the
payload. -/
theorem sds_create_binary_safe (bytes : List Nat) (len : Nat) (h : bytes.length = len) :
    (sdsnewlen bytes len).len = len ∧
    (sdsnewlen bytes len).free = 0 ∧
    content (sdsnewlen bytes len) = bytes ∧
    (sdsnewlen bytes len).buf[len]? = some 0 := by
  subst h
  refine ⟨rfl, rfl, ?_, ?_⟩
  · show (bytes.take bytes.length ++ [0]).take bytes.length = bytes
    rw [List.take_length, List.take_append_of_le_length (le_refl _), List.take_length]
  · show (bytes.take bytes.length ++ [0])[bytes.length]? = some 0
    rw [List.take_length, List.getElem?_append_right (le_refl _), Nat.sub_self]
    rfl

/-- Witness for sds_create_binary_safe: a three-byte input with an
embedded zero byte. -/
theorem sds_create_binary_safe_witness :
    (sdsnewlen [104, 0, 105] 3).len = 3 ∧
    (sdsnewlen [104, 0, 105] 3).free = 0 ∧
    content (sdsnewlen [104, 0, 105] 3) = [104, 0, 105] ∧
    (sdsnewlen [104, 0, 105] 3).buf[3]? = some 0 :=
  sds_create_binary_safe [104, 0, 105] 3 (by decide)

/-- C6: truncateRange semantics on a valid string: negative indices
count from the end, so sdsrange s 0 (-1) keeps the length and content
unchanged; sdsrange s 3 1 (start past end after normalization) yields
length 0; and for all indices the allocation size is never reduced,
the trailing bytes turning into free capacity in place. -/
theorem sds_range_semantics (s : sdshdr) (start stop : Int) (hv : valid s) :
    ((sdsrange s 0 (-1)).len = s.len ∧ content (sdsrange s 0 (-1)) = content s) ∧
    (sdsrange s 3 1).len = 0 ∧
    (sdsrange s start stop).buf.length = s.buf.length ∧
    (sdsrange s start stop).len + (sdsrange s start stop).free = s.len + s.free := by
  obtain ⟨hb, hs⟩ := hv
  have hlo0 : rangeLo s.len 0 = 0 := by
    unfold rangeLo
    rw [if_neg (by norm_num)]
    norm_num
  have hhi1 : rangeHi s.len (-1) = (s.len : Int) - 1 := by
    unfold rangeHi
    rw [if_pos (by norm_num)]
    have h : (s.len : Int) + (-1) = (s.len : Int) - 1 := by ring
    rw [h, min_self]
  have hnl0 : rangeNewlen s.len 0 (-1) = s.len := by
    unfold rangeNewlen
    rw [hlo0, hhi1]
    split <;> omega
  refine ⟨⟨?_, ?_⟩, ?_, ?_, ?_⟩
  · show rangeNewlen s.len 0 (-1) = s.len
    exact hnl0
  · show ((writeAt s.buf 0
        ((s.buf.drop (rangeLo s.len 0).toNat).take (rangeNewlen s.len 0 (-1)))).set
        (rangeNewlen s.len 0 (-1)) 0).take (rangeNewlen s.len 0 (-1)) = content s
    rw [hnl0, hlo0, take_set_le _ (le_refl _)]
    simp only [Int.toNat_zero, List.drop_zero]
    have hdlen : (s.buf.take s.len).length = s.len := by
      simp only [List.length_take]
      omega
    have hfull := take_writeAt_full s.buf (s.buf.take s.len) 0 (by omega)
    rw [hdlen, Nat.zero_add] at hfull
    rw [hfull]
    simp [content]
  · show rangeNewlen s.len 3 1 = 0
    have hlo3 : rangeLo s.len 3 = 3 := by
      unfold rangeLo
      rw [if_neg (by norm_num)]
      norm_num
    have hhi : rangeHi s.len 1 ≤ 1 := by
      unfold rangeHi
      rw [if_neg (by norm_num)]
      exact min_le_left _ _
    unfold rangeNewlen
    rw [if_neg (by omega)]
  · have hnl := rangeNewlen_le s.len start stop
    show ((writeAt s.buf 0
        ((s.buf.drop (rangeLo s.len start).toNat).take (rangeNewlen s.len start stop))).set
        (rangeNewlen s.len start stop) 0).length = s.buf.length
    rw [List.length_set,
      length_writeAt (by simp only [List.length_take, List.length_drop]; omega)]
  · have hnl := rangeNewlen_le s.len start stop
    show rangeNewlen s.len start stop +
        (s.free + (s.len - rangeNewlen s.len start stop)) = s.len + s.free
    omega

/-- Witness for sds_range_semantics: a concrete valid string of length
3 with one spare byte, probed with start -2 and stop 5. -/
theorem sds_range_semantics_witness :
    ((sdsrange (sdshdr.mk 3 1 [1, 2, 3, 0, 0]) 0 (-1)).len = 3 ∧
      content (sdsrange (sdshdr.mk 3 1 [1, 2, 3, 0, 0]) 0 (-1)) =
        content (sdshdr.mk 3 1 [1, 2, 3, 0, 0])) ∧
    (sdsrange (sdshdr.mk 3 1 [1, 2, 3, 0, 0]) 3 1).len = 0 ∧
    (sdsrange (sdshdr.mk 3 1 [1, 2, 3, 0, 0]) (-2) 5).buf.length = 5 ∧
    (sdsrange (sdshdr.mk 3 1 [1, 2, 3, 0, 0]) (-2) 5).len +
      (sdsrange (sdshdr.mk 3 1 [1, 2, 3, 0, 0]) (-2) 5).free = 3 + 1 :=
  sds_range_semantics (sdshdr.mk 3 1 [1, 2, 3, 0, 0]) (-2) 5 (by decide)

/-- C7: lazy clear: after sdsclear the length is 0, the available
capacity is the previous length plus the previous free, the allocation
size is unchanged (no relocation), and every payload byte beyond the
sentinel written at offset 0 is untouched. -/
theorem sds_clear_lazy (s : sdshdr) :
    (sdsclear s).len = 0 ∧
    (sdsclear s).free = s.len + s.free ∧
    (sdsclear s).buf.length = s.buf.length ∧
    (sdsclear s).buf.drop 1 = s.buf.drop 1 := by
  refine ⟨rfl, Nat.add_comm s.free s.len, ?_, ?_⟩
  · show (s.buf.set 0 0).length = s.buf.length
    exact List.length_set s.buf 0 0
  · show (s.buf.set 0 0).drop 1 = s.buf.drop 1
    cases s.buf with
    | nil => rfl
    | cons b bs => rfl

/-- C3 counterexample: per the sds.h declarations, not every one of
the six mutating operations returns the sds handle — sdsrange and
sdsclear are declared with return type void. -/
theorem sds_mutators_all_return_handle_cex :
    ¬ (sdscatlenRet = CRet.sdsTy ∧ sdscpylenRet = CRet.sdsTy ∧
      sdsrangeRet = CRet.sdsTy ∧ sdsclearRet = CRet.sdsTy ∧
      sdsRemoveFreeSpaceRet = CRet.sdsTy ∧ sdsgrowzeroRet = CRet.sdsTy) := by
  decide

/-- C3 amended: of the six mutating operations, append, overwrite,
zero-pad-grow and shrink-to-fit return the sds handle, while
truncateRange and clear are declared void in sds.h (they mutate in
place and never relocate, so no new handle is produced). -/
theorem sds_mutators_return_types :
    sdscatlenRet = CRet.sdsTy ∧ sdscpylenRet = CRet.sdsTy ∧
    sdsgrowzeroRet = CRet.sdsTy ∧ sdsRemoveFreeSpaceRet = CRet.sdsTy ∧
    sdsrangeRet = CRet.void ∧ sdsclearRet = CRet.void := by
  decide

/-- C8: sdslen and sdsavail are reads of the two header fields: for a
string laid out in memory at any position, with the payload offset p
sitting sizeof(struct sdshdr) bytes after the header, sdslen returns
exactly the len field and sdsavail exactly the free field. -/
theorem sds_len_avail_read_header (pre rest : List Nat) (s : sdshdr) (p : Nat)
    (hp : p = pre.length + sdshdrSize)
    (hlen : s.len < 2 ^ 32) (hfree : s.free < 2 ^ 32) :
    sdslen (pre ++ reprSDS s ++ rest) p = s.len ∧
    sdsavail (pre ++ reprSDS s ++ rest) p = s.free := by
  subst hp
  have h32 : (256 : Nat) ^ 4 = 2 ^ 32 := by norm_num
  constructor
  · unfold sdslen sdshdrSize
    rw [show pre.length + 8 - 8 = pre.length from by omega]
    unfold reprSDS
    simp only [List.append_assoc]
    rw [List.drop_left' rfl, List.take_left' (length_leEncode 4 s.len)]
    exact leDecode_leEncode (by omega)
  · unfold sdsavail sdshdrSize
    rw [show pre.length + 8 - 8 + 4 = pre.length + 4 from by omega]
    unfold reprSDS
    simp only [List.append_assoc]
    rw [List.drop_append 4, List.drop_left' (length_leEncode 4 s.len),
      List.take_left' (length_leEncode 4 s.free)]
    exact leDecode_leEncode (by omega)

/-- Witness for sds_len_avail_read_header: a concrete layout with two
context bytes before the header and one after the buffer. -/
theorem sds_len_avail_read_header_witness :
    sdslen ([9, 9] ++ reprSDS (sdshdr.mk 2 1 [7, 8, 0, 0]) ++ [5]) 10 = 2 ∧
    sdsavail ([9, 9] ++ reprSDS (sdshdr.mk 2 1 [7, 8, 0, 0]) ++ [5]) 10 = 1 :=
  sds_len_avail_read_header [9, 9] [5] (sdshdr.mk 2 1 [7, 8, 0, 0]) 10
    (by decide) (by decide) (by decide)

/-- C9: the header stores len and free as 4-byte unsigned int fields,
so for every memory state and payload offset the values sdslen and
sdsavail return are at most 2^32 - 1, even though both readers widen
their result to size_t. -/
theorem sds_len_avail_bound (mem : List Nat) (p : Nat) :
    sdslen mem p ≤ 2 ^ 32 - 1 ∧ sdsavail mem p ≤ 2 ^ 32 - 1 := by
  have h32 : (256 : Nat) ^ 4 = 2 ^ 32 := by norm_num
  constructor
  · have h1 := leDecode_lt ((mem.drop (p - sdshdrSize)).take 4)
    have h2 : (256 : Nat) ^ ((mem.drop (p - sdshdrSize)).take 4).length ≤ 256 ^ 4 :=
      Nat.pow_le_pow_right (by norm_num) (List.length_take_le _ _)
    show leDecode ((mem.drop (p - sdshdrSize)).take 4) ≤ 2 ^ 32 - 1
    omega
  · have h1 := leDecode_lt ((mem.drop (p - sdshdrSize + 4)).take 4)
    have h2 : (256 : Nat) ^ ((mem.drop (p - sdshdrSize + 4)).take 4).length ≤ 256 ^ 4 :=
      Nat.pow_le_pow_right (by norm_num) (List.length_take_le _ _)
    show leDecode ((mem.drop (p - sdshdrSize + 4)).take 4) ≤ 2 ^ 32 - 1
    omega

/-- C10: purity of the const readers: the state-passing embeddings of
sdslen and sdsavail return the memory unchanged, and a second call on
the state returned by the first yields the same value. -/
theorem sds_len_avail_pure (mem : List Nat) (p : Nat) :
    (sdslenCall mem p).2 = mem ∧
    (sdsavailCall mem p).2 = mem ∧
    (sdslenCall (sdslenCall mem p).2 p).1 = (sdslenCall mem p).1 ∧
    (sdsavailCall (sdsavailCall mem p).2 p).1 = (sdsavailCall mem p).1 :=
  ⟨rfl, rfl, rfl, rfl⟩

